import Mathlib

/-!
Verification development for the replica synchronization engine of
`src/packages/sql/collection.js` (the `registerStore` callbacks
`beginUpdate` / `update` / `endUpdate` of `SQL.Collection`), over a model
of the underlying document store.

The document store itself (`self._collection`, a `LocalCollection`) is code
of this repository that is not under `src/`; its operations (`findOne`,
`insert`, `remove`, `update`, `pauseObservers`, `resumeObservers`) are
modelled from the spec (sections 4.1 and 4.2), as noted on each definition.
-/

set_option autoImplicit false

/-- JS field values as they occur in documents and mutation messages.
`undef` is the JS `undefined` sentinel: a `changed` field mapped to it is
unset (collection.js line 181). -/
inductive Val where
  | undef
  | str (s : String)
  | int (n : Int)
  deriving DecidableEq, Repr

/-- A document: an insertion-ordered mapping from field name to value,
modelling a JS object (keys unique in any object produced by JS). -/
abbrev Doc := List (String × Val)

/-- JS property read `d[k]`: the value at the first occurrence of key `k`. -/
def getField (d : Doc) (k : String) : Option Val :=
  match d with
  | [] => none
  | (k2, v) :: rest => if k2 = k then some v else getField rest k

/-- JS property write `d[k] = v`: overwrite in place if the key is present
(keeping its position, as JS objects do), otherwise append at the end. -/
def setField (d : Doc) (k : String) (v : Val) : Doc :=
  match d with
  | [] => [(k, v)]
  | (k2, v2) :: rest => if k2 = k then (k2, v) :: rest else (k2, v2) :: setField rest k v

/-- JS `delete d[k]`: remove the key (all occurrences; JS objects have at
most one). -/
def removeField (d : Doc) (k : String) : Doc :=
  match d with
  | [] => []
  | (k2, v2) :: rest => if k2 = k then removeField rest k else (k2, v2) :: removeField rest k

/-- Underscore `_.extend(target, source)`: assign every key of `source`
onto `target`, in source order, later assignments overriding earlier ones
(collection.js line 170). -/
def extendDoc (target : Doc) (source : List (String × Val)) : Doc :=
  match source with
  | [] => target
  | (k, v) :: rest => extendDoc (setField target k v) rest

/-- Remove a list of fields in order (application of a `$unset` group). -/
def removeFields (d : Doc) (ks : List String) : Doc :=
  match ks with
  | [] => d
  | k :: rest => removeFields (removeField d k) rest

/-- Keys of a field mapping, in order. -/
def keysOf (l : List (String × Val)) : List String := l.map Prod.fst

/-- Modelled from the spec: `LocalCollection._idParse` (collection.js line
148) maps the wire id to the store Identifier; the spec (section 6) treats
Identifier as an opaque equality-comparable key supplied externally, so
parsing is modelled as injecting the wire string as an identifier value. -/
def idParse (i : String) : Val := Val.str i

/-- Modelled from the spec (section 3): the DocumentStore is a mapping from
Identifier to Document, represented as an insertion-ordered keyed list. -/
abbrev Store := List (Val × Doc)

/-- Modelled from the spec (section 4.1): `findOne(id)` returns the document
with that Identifier or "not found". -/
def Store.findOne (s : Store) (i : Val) : Option Doc :=
  match s with
  | [] => none
  | (k, d) :: rest => if k = i then some d else Store.findOne rest i

/-- The Identifier a document is stored under: its `_id` field. A document
lacking `_id` would receive an externally generated identifier (spec
section 6, id generation out of scope); that external step is modelled as
the `undef` sentinel key. -/
def docIdOf (d : Doc) : Val := (getField d "_id").getD Val.undef

/-- Modelled from the spec (section 4.1): `insert(doc)` adds a new document,
keyed by its Identifier; call sites in the session guard against the
`DuplicateKey` case by checking existence first. -/
def Store.insertDoc (s : Store) (d : Doc) : Store := s ++ [(docIdOf d, d)]

/-- Modelled from the spec (section 4.1): `remove(id)` deletes the document
with that Identifier; call sites guard the `NotFound` case. -/
def Store.removeId (s : Store) (i : Val) : Store :=
  match s with
  | [] => []
  | (k, d) :: rest => if k = i then Store.removeId rest i else (k, d) :: Store.removeId rest i

/-- Map the document stored at Identifier `i` (first match) through `f`,
leaving the rest of the store unchanged. -/
def Store.mapAt (s : Store) (i : Val) (f : Doc → Doc) : Store :=
  match s with
  | [] => []
  | (k, d) :: rest => if k = i then (k, f d) :: rest else (k, d) :: Store.mapAt rest i f

/-- The modifier argument of a `DocumentStore.update` call as the session
builds it: either a plain replacement document (collection.js line 163) or
a `{$set, $unset}` pair (lines 179-190). -/
inductive Modifier where
  | replaceWith (d : Doc)
  | setUnset (sets : List (String × Val)) (unsets : List String)
  deriving DecidableEq, Repr

/-- Modelled from the spec (sections 4.1 and 4.2): applying a modifier to a
document. A plain replacement overwrites the fields of the document with those of
the replacement (whole-document replace, not merge); a `$set`/`$unset` pair
sets the listed fields and unsets the sentinel-marked ones. -/
def applyModifier (d : Doc) (m : Modifier) : Doc :=
  match m with
  | .replaceWith r => r
  | .setUnset sets unsets => removeFields (extendDoc d sets) unsets

/-- Modelled from the spec (section 4.1): `update(id, modifier)` rewrites
the document at `id`; call sites guard the `NotFound` case by checking
existence first. -/
def Store.updateAt (s : Store) (i : Val) (m : Modifier) : Store :=
  Store.mapAt s i (fun d => applyModifier d m)

/-- State of one collection as the session callbacks see it: the document
store plus the observer pause gate. `pauseDepth` is the pause nesting level
(spec sections 4.2 and 5: nesting is counted, an unmatched resume is a
no-op). `pauseCalls`, `resumeCalls` and `updateCalls` count the calls made
to `pauseObservers`, `resumeObservers` and `DocumentStore.update`, so that
"is called" claims are statable. -/
structure Coll where
  docs : Store
  pauseDepth : Nat
  pauseCalls : Nat
  resumeCalls : Nat
  updateCalls : Nat
  deriving DecidableEq, Repr

/-- Modelled from the spec (section 4.1): `pauseObservers()` raises the
pause nesting level; notifications are buffered while paused. -/
def Coll.pauseObservers (c : Coll) : Coll :=
  { c with pauseDepth := c.pauseDepth + 1, pauseCalls := c.pauseCalls + 1 }

/-- Modelled from the spec (sections 4.2 and 5): `resumeObservers()` lowers
the pause nesting level, flushing at depth zero; an unmatched resume (depth
already zero) is a no-op, not an error. -/
def Coll.resumeObservers (c : Coll) : Coll :=
  { c with pauseDepth := c.pauseDepth - 1, resumeCalls := c.resumeCalls + 1 }

/-- A mutation message as dispatched on `msg.msg` in collection.js lines
154-195: the four recognized tags plus `other` for any unrecognized tag. -/
inductive Msg where
  | replace (id : String) (replacement : Option Doc)
  | added (id : String) (fields : List (String × Val))
  | removed (id : String)
  | changed (id : String) (fields : List (String × Val))
  | other (tag : String) (id : String)
  deriving DecidableEq, Repr

/-- The `id` property read from every message (collection.js line 148). -/
def Msg.msgId : Msg → String
  | .replace i _ => i
  | .added i _ => i
  | .removed i => i
  | .changed i _ => i
  | .other _ i => i

/-- The protocol faults thrown by `update`, one per throw site
(collection.js lines 168, 173, 177, 194); the spec (section 7) groups them
as `ProtocolViolation`. -/
inductive ProtoErr where
  | unexpectedExistingDocForAdd
  | expectedExistingDocForRemoved
  | expectedExistingDocForChange
  | unrecognizedMessage
  deriving DecidableEq, Repr

/-- Result of one `update` call: the thrown error, if any, together with the
collection state when control leaves the function (a JS throw does not roll
back mutations already performed, so the state is carried even on error). -/
structure StepResult where
  err? : Option ProtoErr
  coll : Coll
  deriving DecidableEq, Repr

/-- The `$set` group of a `changed` message: fields whose value is present
(collection.js lines 185-188), in field order. -/
def setsOf (fields : List (String × Val)) : List (String × Val) :=
  fields.filter (fun p => p.2 ≠ Val.undef)

/-- The `$unset` group of a `changed` message: keys mapped to the `undefined`
sentinel (collection.js lines 181-184), in field order. -/
def unsetsOf (fields : List (String × Val)) : List String :=
  keysOf (fields.filter (fun p => p.2 = Val.undef))

/-- Embedding of the `update` callback of the session, collection.js lines
147-197, translated branch by branch. -/
def Coll.update (c : Coll) (m : Msg) : StepResult :=
  let mongoId := idParse m.msgId
  let doc := c.docs.findOne mongoId
  match m with
  | .replace _ rep =>
    match rep with
    | none =>
      match doc with
      | some _ => ⟨none, { c with docs := c.docs.removeId mongoId }⟩
      | none => ⟨none, c⟩
    | some r =>
      match doc with
      | none => ⟨none, { c with docs := c.docs.insertDoc r }⟩
      | some _ =>
        ⟨none, { c with docs := c.docs.updateAt mongoId (.replaceWith r),
                        updateCalls := c.updateCalls + 1 }⟩
  | .added _ fields =>
    match doc with
    | some _ => ⟨some .unexpectedExistingDocForAdd, c⟩
    | none =>
      ⟨none, { c with docs := c.docs.insertDoc (extendDoc [("_id", mongoId)] fields) }⟩
  | .removed _ =>
    match doc with
    | none => ⟨some .expectedExistingDocForRemoved, c⟩
    | some _ => ⟨none, { c with docs := c.docs.removeId mongoId }⟩
  | .changed _ fields =>
    match doc with
    | none => ⟨some .expectedExistingDocForChange, c⟩
    | some _ =>
      if fields.isEmpty then ⟨none, c⟩
      else
        ⟨none, { c with docs := c.docs.updateAt mongoId (.setUnset (setsOf fields) (unsetsOf fields)),
                        updateCalls := c.updateCalls + 1 }⟩
  | .other _ _ => ⟨some .unrecognizedMessage, c⟩

/-- Embedding of the `beginUpdate` callback of the session, collection.js lines
132-143: pause observers when the batch has more than one message or is a
reset, and on reset clear the whole store (`remove({})`, modelled from the
spec: clears the entire DocumentStore). -/
def Coll.beginUpdate (c : Coll) (batchSize : Nat) (reset : Bool) : Coll :=
  let c1 := if batchSize > 1 || reset then c.pauseObservers else c
  if reset then { c1 with docs := [] } else c1

/-- Embedding of the `endUpdate` callback of the session, collection.js lines
200-202: resume observers unconditionally. -/
def Coll.endUpdate (c : Coll) : Coll := c.resumeObservers

/-- Run a sequence of `update` calls; a thrown error aborts the run and
surfaces, with the state at the throw point. -/
def Coll.runUpdates (c : Coll) : List Msg → StepResult
  | [] => ⟨none, c⟩
  | m :: ms =>
    let r := c.update m
    match r.err? with
    | some e => ⟨some e, r.coll⟩
    | none => r.coll.runUpdates ms

/-- A collection state with empty store and observers not paused. -/
def emptyColl : Coll := ⟨[], 0, 0, 0, 0⟩

/-- Modelled from the spec (section 4.2, step by step in its words): the
`changed` interpretation applied directly to a document — "a field mapped to
an explicit absent sentinel means unset that field, any other value means
set it", in field order. -/
def refChangeFields (d : Doc) : List (String × Val) → Doc
  | [] => d
  | (k, v) :: rest =>
    if v = Val.undef then refChangeFields (removeField d k) rest
    else refChangeFields (setField d k v) rest

/-- Modelled from the spec (sections 8 and 4.2): one step of the reference
interpretation — "a reference in-memory map using the same interpretation
rules", keyed by the message Identifier. Returns `none` when an existence
precondition fails (a `ProtocolViolation` in the taxonomy of the spec). The data
model (section 3) makes a Document carry its Identifier, materialized here
as the `_id` field, so `Added` stores the fields extended over
`{_id: id}`. -/
def refStep (r : Store) (m : Msg) : Option Store :=
  match m with
  | .replace i rep =>
    let key := idParse i
    match rep with
    | none =>
      match Store.findOne r key with
      | some _ => some (Store.removeId r key)
      | none => some r
    | some d =>
      match Store.findOne r key with
      | some _ => some (Store.mapAt r key (fun _ => d))
      | none => some (r ++ [(key, d)])
  | .added i fields =>
    let key := idParse i
    match Store.findOne r key with
    | some _ => none
    | none => some (r ++ [(key, extendDoc [("_id", key)] fields)])
  | .removed i =>
    let key := idParse i
    match Store.findOne r key with
    | some _ => some (Store.removeId r key)
    | none => none
  | .changed i fields =>
    let key := idParse i
    match Store.findOne r key with
    | none => none
    | some _ =>
      if fields.isEmpty then some r
      else some (Store.mapAt r key (fun d => refChangeFields d fields))
  | .other _ _ => none

/-- Replay of a message sequence against the reference map; `none` as soon
as an existence precondition fails. -/
def refRun (r : Store) : List Msg → Option Store
  | [] => some r
  | m :: ms =>
    match refStep r m with
    | none => none
    | some r2 => refRun r2 ms

/-- Message well-formedness under which the session agrees with the
reference map: field mappings are honest JS objects (duplicate-free keys),
an `added` field mapping does not smuggle an `_id` override, and a non-null
`replace` replacement carries an `_id` equal to the message id (which is how
the authoritative source emits them). -/
def msgOk : Msg → Bool
  | .replace i rep =>
    match rep with
    | none => true
    | some d => decide (getField d "_id" = some (idParse i))
  | .added _ fields => decide ("_id" ∉ keysOf fields) && decide ((keysOf fields).Nodup)
  | .removed _ => true
  | .changed _ fields => decide ((keysOf fields).Nodup)
  | .other _ _ => true

/-- The error thrown by the `SQL.Collection` constructor when the
`registerStore` of the connection rejects the name (collection.js lines 214-215:
"There is already a collection named ..."). -/
inductive ConstructErr where
  | collectionAlreadyExists (name : String)
  deriving DecidableEq, Repr

/-- The connection facts that the registration tail of the constructor depends on:
whether the connection object has a `registerStore` method, and what
`registerStore(name, callbacks)` returns for a given name (falsy when the
name is already registered with that connection). -/
structure ConnModel where
  hasRegisterStore : Bool
  registerOk : String → Bool

/-- Embedding of the store-registration tail of the constructor, collection.js
lines 117-216: when the connection supports `registerStore`, a falsy result
raises the duplicate-name error; otherwise registration succeeds. -/
def collectionRegister (name : String) (conn : ConnModel) : Except ConstructErr Unit :=
  if conn.hasRegisterStore then
    if conn.registerOk name then Except.ok () else Except.error (.collectionAlreadyExists name)
  else Except.ok ()

/-! ### Field-level lemmas -/

theorem getField_setField_self (d : Doc) (k : String) (v : Val) :
    getField (setField d k v) k = some v := by
  induction d with
  | nil => simp [setField, getField]
  | cons p rest ih =>
    obtain ⟨k2, v2⟩ := p
    by_cases h : k2 = k <;> simp [setField, getField, h, ih]

theorem getField_setField_ne (d : Doc) {k2 k : String} (v : Val) (h : k2 ≠ k) :
    getField (setField d k2 v) k = getField d k := by
  induction d with
  | nil => simp [setField, getField, h]
  | cons p rest ih =>
    obtain ⟨k3, v3⟩ := p
    by_cases h3 : k3 = k2 <;> by_cases h4 : k3 = k <;>
      simp_all [setField, getField]

theorem getField_removeField_self (d : Doc) (k : String) :
    getField (removeField d k) k = none := by
  induction d with
  | nil => simp [removeField, getField]
  | cons p rest ih =>
    obtain ⟨k2, v2⟩ := p
    by_cases h : k2 = k <;> simp [removeField, getField, h, ih]

theorem getField_removeField_ne (d : Doc) {k2 k : String} (h : k2 ≠ k) :
    getField (removeField d k2) k = getField d k := by
  induction d with
  | nil => simp [removeField, getField]
  | cons p rest ih =>
    obtain ⟨k3, v3⟩ := p
    by_cases h3 : k3 = k2 <;> by_cases h4 : k3 = k <;>
      simp_all [removeField, getField]

theorem removeField_setField_comm (d : Doc) {k2 k : String} (v : Val) (h : k2 ≠ k) :
    removeField (setField d k2 v) k = setField (removeField d k) k2 v := by
  induction d with
  | nil => simp [setField, removeField, h, Ne.symm h]
  | cons p rest ih =>
    obtain ⟨k3, v3⟩ := p
    by_cases h3 : k3 = k2 <;> by_cases h4 : k3 = k <;>
      simp_all [setField, removeField, h, Ne.symm h]

theorem getField_extendDoc_of_not_mem {fields : List (String × Val)} {k : String}
    (h : k ∉ keysOf fields) :
    ∀ base : Doc, getField (extendDoc base fields) k = getField base k := by
  induction fields with
  | nil => intro base; simp [extendDoc]
  | cons p rest ih =>
    intro base
    obtain ⟨k2, v2⟩ := p
    simp only [keysOf, List.map_cons, List.mem_cons] at h
    push_neg at h
    rw [extendDoc, ih (by simpa [keysOf] using h.2)]
    exact getField_setField_ne base v2 (Ne.symm h.1)

theorem getField_extendDoc_mem {fields : List (String × Val)} {k : String} {v : Val}
    (hnd : (keysOf fields).Nodup) (hmem : (k, v) ∈ fields) :
    ∀ base : Doc, getField (extendDoc base fields) k = some v := by
  induction fields with
  | nil => cases hmem
  | cons p rest ih =>
    intro base
    obtain ⟨k2, v2⟩ := p
    simp only [keysOf, List.map_cons, List.nodup_cons] at hnd
    rcases List.mem_cons.mp hmem with h | h
    · obtain ⟨hk, hv⟩ := Prod.mk.injEq .. ▸ h
      subst hk; subst hv
      rw [extendDoc, getField_extendDoc_of_not_mem (by simpa [keysOf] using hnd.1)]
      exact getField_setField_self base k v
    · rw [extendDoc]
      exact ih hnd.2 h (setField base k2 v2)

theorem removeField_extendDoc_comm {sets : List (String × Val)} {k : String}
    (h : k ∉ keysOf sets) :
    ∀ d : Doc, removeField (extendDoc d sets) k = extendDoc (removeField d k) sets := by
  induction sets with
  | nil => intro d; simp [extendDoc]
  | cons p rest ih =>
    intro d
    obtain ⟨k2, v2⟩ := p
    simp only [keysOf, List.map_cons, List.mem_cons] at h
    push_neg at h
    rw [extendDoc, ih (by simpa [keysOf] using h.2), extendDoc,
      removeField_setField_comm d v2 (Ne.symm h.1)]

theorem getField_removeFields (ks : List String) (k : String) :
    ∀ d : Doc, getField (removeFields d ks) k = if k ∈ ks then none else getField d k := by
  induction ks with
  | nil => intro d; simp [removeFields]
  | cons u rest ih =>
    intro d
    by_cases hu : k = u
    · subst hu
      rw [removeFields, ih]
      by_cases hm : k ∈ rest <;> simp [hm, getField_removeField_self]
    · rw [removeFields, ih, getField_removeField_ne d (Ne.symm hu)]
      simp [List.mem_cons, hu]

/-! ### Partition of a `changed` field mapping -/

theorem setsOf_cons_undef (k : String) (rest : List (String × Val)) :
    setsOf ((k, Val.undef) :: rest) = setsOf rest := by
  simp [setsOf, List.filter_cons]

theorem setsOf_cons_val {v : Val} (k : String) (rest : List (String × Val))
    (h : v ≠ Val.undef) : setsOf ((k, v) :: rest) = (k, v) :: setsOf rest := by
  simp [setsOf, List.filter_cons, h]

theorem unsetsOf_cons_undef (k : String) (rest : List (String × Val)) :
    unsetsOf ((k, Val.undef) :: rest) = k :: unsetsOf rest := by
  simp [unsetsOf, keysOf, List.filter_cons]

theorem unsetsOf_cons_val {v : Val} (k : String) (rest : List (String × Val))
    (h : v ≠ Val.undef) : unsetsOf ((k, v) :: rest) = unsetsOf rest := by
  simp [unsetsOf, keysOf, List.filter_cons, h]

theorem keysOf_setsOf_subset {fields : List (String × Val)} {k : String}
    (h : k ∈ keysOf (setsOf fields)) : k ∈ keysOf fields := by
  simp only [keysOf, setsOf, List.mem_map] at *
  obtain ⟨p, hp, rfl⟩ := h
  exact ⟨p, (List.mem_filter.mp hp).1, rfl⟩

theorem mem_unsetsOf {fields : List (String × Val)} {k : String}
    (h : k ∈ unsetsOf fields) : (k, Val.undef) ∈ fields := by
  simp only [unsetsOf, keysOf, List.mem_map] at h
  obtain ⟨p, hp, rfl⟩ := h
  obtain ⟨hmem, hdec⟩ := List.mem_filter.mp hp
  have : p.2 = Val.undef := by simpa using hdec
  obtain ⟨k2, v2⟩ := p
  simp only at this
  subst this
  exact hmem

theorem mem_unsetsOf_subset {fields : List (String × Val)} {k : String}
    (h : k ∈ unsetsOf fields) : k ∈ keysOf fields := by
  have := mem_unsetsOf h
  simp only [keysOf, List.mem_map]
  exact ⟨(k, Val.undef), this, rfl⟩

/-- The set-then-unset application the session builds (collection.js lines
178-191) agrees with the in-order interpretation of the spec, for any field
mapping coming from a JS object (duplicate-free keys). -/
theorem setUnset_eq_refChangeFields (fields : List (String × Val))
    (hnd : (keysOf fields).Nodup) :
    ∀ d : Doc, removeFields (extendDoc d (setsOf fields)) (unsetsOf fields) =
      refChangeFields d fields := by
  induction fields with
  | nil => intro d; simp [setsOf, unsetsOf, keysOf, extendDoc, removeFields, refChangeFields]
  | cons p rest ih =>
    intro d
    obtain ⟨k, v⟩ := p
    simp only [keysOf, List.map_cons, List.nodup_cons] at hnd
    have hknotin : k ∉ keysOf rest := by simpa [keysOf] using hnd.1
    by_cases hv : v = Val.undef
    · subst hv
      rw [setsOf_cons_undef, unsetsOf_cons_undef, removeFields,
        removeField_extendDoc_comm (fun hc => hknotin (keysOf_setsOf_subset hc)),
        ih hnd.2, refChangeFields]
      simp
    · rw [setsOf_cons_val k rest hv, unsetsOf_cons_val k rest hv, extendDoc,
        ih hnd.2, refChangeFields]
      simp [hv]

/-! ### Store-level lemmas -/

theorem findOne_append_self {s : Store} {k : Val} (h : s.findOne k = none) (d : Doc) :
    Store.findOne (s ++ [(k, d)]) k = some d := by
  induction s with
  | nil => simp [Store.findOne]
  | cons p rest ih =>
    obtain ⟨k2, d2⟩ := p
    by_cases h2 : k2 = k <;> simp_all [Store.findOne]

theorem findOne_removeId_self (s : Store) (k : Val) :
    Store.findOne (s.removeId k) k = none := by
  induction s with
  | nil => simp [Store.removeId, Store.findOne]
  | cons p rest ih =>
    obtain ⟨k2, d2⟩ := p
    by_cases h2 : k2 = k <;> simp_all [Store.removeId, Store.findOne]

theorem removeId_of_findOne_none {s : Store} {k : Val} (h : s.findOne k = none) :
    s.removeId k = s := by
  induction s with
  | nil => simp [Store.removeId]
  | cons p rest ih =>
    obtain ⟨k2, d2⟩ := p
    by_cases h2 : k2 = k <;> simp_all [Store.removeId, Store.findOne]

theorem findOne_mapAt_self {s : Store} {k : Val} {d : Doc}
    (h : s.findOne k = some d) (f : Doc → Doc) :
    Store.findOne (s.mapAt k f) k = some (f d) := by
  induction s with
  | nil => simp [Store.findOne] at h
  | cons p rest ih =>
    obtain ⟨k2, d2⟩ := p
    by_cases h2 : k2 = k <;> simp_all [Store.mapAt, Store.findOne]

theorem mapAt_const_of_findOne {s : Store} {k : Val} {d : Doc}
    (h : s.findOne k = some d) (f : Doc → Doc) :
    s.mapAt k f = s.mapAt k (fun _ => f d) := by
  induction s with
  | nil => simp [Store.mapAt]
  | cons p rest ih =>
    obtain ⟨k2, d2⟩ := p
    by_cases h2 : k2 = k <;> simp_all [Store.mapAt, Store.findOne]

/-! ### Refinement of the session update against the reference map -/

theorem update_refines_step {c : Coll} {m : Msg} {r2 : Store}
    (hok : msgOk m = true) (href : refStep c.docs m = some r2) :
    (c.update m).err? = none ∧ (c.update m).coll.docs = r2 := by
  cases m with
  | replace i rep =>
    cases rep with
    | none =>
      cases hf : Store.findOne c.docs (idParse i) with
      | some d => simp_all [Coll.update, Msg.msgId, refStep]
      | none => simp_all [Coll.update, Msg.msgId, refStep]
    | some dd =>
      simp only [msgOk, decide_eq_true_eq] at hok
      cases hf : Store.findOne c.docs (idParse i) with
      | some d =>
        simp_all [Coll.update, Msg.msgId, refStep, Store.updateAt, applyModifier]
      | none =>
        simp_all [Coll.update, Msg.msgId, refStep, Store.insertDoc, docIdOf]
  | added i fields =>
    simp only [msgOk, Bool.and_eq_true, decide_eq_true_eq] at hok
    cases hf : Store.findOne c.docs (idParse i) with
    | some d => simp_all [refStep]
    | none =>
      have hid : getField (extendDoc [("_id", idParse i)] fields) "_id" =
          some (idParse i) := by
        rw [getField_extendDoc_of_not_mem hok.1]
        simp [getField]
      simp_all [Coll.update, Msg.msgId, refStep, Store.insertDoc, docIdOf]
  | removed i =>
    cases hf : Store.findOne c.docs (idParse i) with
    | some d => simp_all [Coll.update, Msg.msgId, refStep]
    | none => simp_all [refStep]
  | changed i fields =>
    simp only [msgOk, decide_eq_true_eq] at hok
    cases hf : Store.findOne c.docs (idParse i) with
    | some d =>
      by_cases hemp : fields.isEmpty
      · simp_all [Coll.update, Msg.msgId, refStep]
      · have hfun : (fun d0 => applyModifier d0
            (Modifier.setUnset (setsOf fields) (unsetsOf fields))) =
            (fun d0 : Doc => refChangeFields d0 fields) := by
          funext d0
          exact setUnset_eq_refChangeFields fields hok d0
        simp_all [Coll.update, Msg.msgId, refStep, Store.updateAt]
    | none => simp_all [refStep]
  | other tag i => simp [refStep] at href

/-- Replaying a sequence of well-formed messages whose preconditions hold
through the `update` of the session raises no error and ends in the reference
state. -/
theorem runUpdates_refines (ms : List Msg) : ∀ (c : Coll) (rf : Store),
    (∀ m ∈ ms, msgOk m = true) → refRun c.docs ms = some rf →
    (c.runUpdates ms).err? = none ∧ (c.runUpdates ms).coll.docs = rf := by
  induction ms with
  | nil =>
    intro c rf _ href
    simp only [refRun, Option.some.injEq] at href
    simp [Coll.runUpdates, href]
  | cons m ms ih =>
    intro c rf hok href
    cases hstep : refStep c.docs m with
    | none => rw [refRun, hstep] at href; cases href
    | some r2 =>
      rw [refRun, hstep] at href
      obtain ⟨herr, hdocs⟩ := update_refines_step (hok m (by simp)) hstep
      rw [Coll.runUpdates, herr]
      rw [← hdocs] at href
      exact ih (c.update m).coll rf (fun m2 hm2 => hok m2 (by simp [hm2])) href

/-! ### Additional helpers for the per-field semantics of `changed` -/

theorem mem_unsetsOf_of_mem {fields : List (String × Val)} {k : String}
    (h : (k, Val.undef) ∈ fields) : k ∈ unsetsOf fields := by
  simp only [unsetsOf, keysOf, List.mem_map]
  exact ⟨(k, Val.undef), List.mem_filter.mpr ⟨h, by simp⟩, rfl⟩

theorem keysOf_nodup_unique {l : List (String × Val)} (hnd : (keysOf l).Nodup)
    {k : String} {v1 v2 : Val} (h1 : (k, v1) ∈ l) (h2 : (k, v2) ∈ l) : v1 = v2 := by
  induction l with
  | nil => cases h1
  | cons p rest ih =>
    obtain ⟨k3, v3⟩ := p
    simp only [keysOf, List.map_cons, List.nodup_cons] at hnd
    rcases List.mem_cons.mp h1 with ha | ha <;> rcases List.mem_cons.mp h2 with hb | hb
    · rw [Prod.mk.injEq] at ha hb
      rw [ha.2, hb.2]
    · rw [Prod.mk.injEq] at ha
      exact absurd (ha.1 ▸ List.mem_map.mpr ⟨(k, v2), hb, rfl⟩) hnd.1
    · rw [Prod.mk.injEq] at hb
      exact absurd (hb.1 ▸ List.mem_map.mpr ⟨(k, v1), ha, rfl⟩) hnd.1
    · exact ih hnd.2 ha hb

theorem nodup_keysOf_setsOf {l : List (String × Val)} (h : (keysOf l).Nodup) :
    (keysOf (setsOf l)).Nodup :=
  List.Nodup.sublist (List.Sublist.map Prod.fst (List.filter_sublist l)) h

/-! ### Claim theorems -/

/-- C3: `update` with an `Added` message whose id is already present fails
with a `ProtocolViolation`; `update` with a `Removed` or `Changed` message
whose id is absent fails with a `ProtocolViolation`; in each failure case
the store (and the whole collection state) is left completely unchanged. -/
theorem update_precondition_failures (c : Coll) (i : String)
    (fields : List (String × Val)) :
    ((Store.findOne c.docs (idParse i)).isSome = true →
      c.update (Msg.added i fields) = ⟨some ProtoErr.unexpectedExistingDocForAdd, c⟩)
    ∧ (Store.findOne c.docs (idParse i) = none →
      c.update (Msg.removed i) = ⟨some ProtoErr.expectedExistingDocForRemoved, c⟩)
    ∧ (Store.findOne c.docs (idParse i) = none →
      c.update (Msg.changed i fields) = ⟨some ProtoErr.expectedExistingDocForChange, c⟩) := by
  refine ⟨fun h => ?_, fun h => ?_, fun h => ?_⟩
  · obtain ⟨d, hd⟩ := Option.isSome_iff_exists.mp h
    simp [Coll.update, Msg.msgId, hd]
  · simp [Coll.update, Msg.msgId, h]
  · simp [Coll.update, Msg.msgId, h]

theorem update_precondition_failures_witness :
    ((⟨[(Val.str "1", [("_id", Val.str "1")])], 0, 0, 0, 0⟩ : Coll).update
        (Msg.added "1" []) =
      ⟨some ProtoErr.unexpectedExistingDocForAdd,
       ⟨[(Val.str "1", [("_id", Val.str "1")])], 0, 0, 0, 0⟩⟩)
    ∧ ((⟨[(Val.str "1", [("_id", Val.str "1")])], 0, 0, 0, 0⟩ : Coll).update
        (Msg.removed "2") =
      ⟨some ProtoErr.expectedExistingDocForRemoved,
       ⟨[(Val.str "1", [("_id", Val.str "1")])], 0, 0, 0, 0⟩⟩)
    ∧ ((⟨[(Val.str "1", [("_id", Val.str "1")])], 0, 0, 0, 0⟩ : Coll).update
        (Msg.changed "2" [("a", Val.int 1)]) =
      ⟨some ProtoErr.expectedExistingDocForChange,
       ⟨[(Val.str "1", [("_id", Val.str "1")])], 0, 0, 0, 0⟩⟩) :=
  ⟨(update_precondition_failures _ "1" []).1 (by decide),
   (update_precondition_failures _ "2" []).2.1 (by decide),
   (update_precondition_failures _ "2" [("a", Val.int 1)]).2.2 (by decide)⟩

/-- C4: a `Replace` with null replacement removes the document when it
exists and is a no-op (not an error) when it does not; applying it twice
gives a state identical after the first and second application. -/
theorem replace_null_idempotent_delete (c : Coll) (i : String) :
    ((c.update (Msg.replace i none)).err? = none)
    ∧ ((c.update (Msg.replace i none)).coll.docs.findOne (idParse i) = none)
    ∧ (Store.findOne c.docs (idParse i) = none → (c.update (Msg.replace i none)).coll = c)
    ∧ ((Store.findOne c.docs (idParse i)).isSome = true →
        (c.update (Msg.replace i none)).coll.docs = c.docs.removeId (idParse i))
    ∧ ((c.update (Msg.replace i none)).coll.update (Msg.replace i none) =
        ⟨none, (c.update (Msg.replace i none)).coll⟩) := by
  cases hf : Store.findOne c.docs (idParse i) with
  | none =>
    refine ⟨?_, ?_, ?_, ?_, ?_⟩ <;>
      simp [Coll.update, Msg.msgId, hf]
  | some d =>
    have h2 : Store.findOne (c.docs.removeId (idParse i)) (idParse i) = none :=
      findOne_removeId_self c.docs (idParse i)
    refine ⟨?_, ?_, ?_, ?_, ?_⟩ <;>
      simp [Coll.update, Msg.msgId, hf, h2]

theorem replace_null_idempotent_delete_witness :
    ((emptyColl.update (Msg.replace "1" none)).coll = emptyColl)
    ∧ ((⟨[(Val.str "1", [("_id", Val.str "1")])], 0, 0, 0, 0⟩ : Coll).update
        (Msg.replace "1" none)).coll.docs =
      Store.removeId [(Val.str "1", [("_id", Val.str "1")])] (idParse "1")
    ∧ (((⟨[(Val.str "1", [("_id", Val.str "1")])], 0, 0, 0, 0⟩ : Coll).update
        (Msg.replace "1" none)).coll.update (Msg.replace "1" none) =
      ⟨none, ((⟨[(Val.str "1", [("_id", Val.str "1")])], 0, 0, 0, 0⟩ : Coll).update
        (Msg.replace "1" none)).coll⟩) :=
  ⟨(replace_null_idempotent_delete emptyColl "1").2.2.1 (by decide),
   (replace_null_idempotent_delete _ "1").2.2.2.1 (by decide),
   (replace_null_idempotent_delete _ "1").2.2.2.2⟩

/-- C7: a message whose tag is none of the four recognized ones fails with
the unrecognized-message `ProtocolViolation`, whatever the store state, and
leaves the state unchanged. -/
theorem unrecognized_message_fails (c : Coll) (tag : String) (i : String) :
    c.update (Msg.other tag i) = ⟨some ProtoErr.unrecognizedMessage, c⟩ := rfl

/-- C8: `endUpdate()` calls `resumeObservers()` exactly once,
unconditionally; resume lowers the pause nesting by one, and when pausing
was skipped (depth zero) the unmatched resume is a no-op, not an error:
depth stays zero and the store is untouched. -/
theorem endUpdate_resumes_unconditionally (c : Coll) :
    (c.endUpdate).resumeCalls = c.resumeCalls + 1
    ∧ (c.endUpdate).docs = c.docs
    ∧ (c.endUpdate).pauseDepth = c.pauseDepth - 1
    ∧ (c.pauseDepth = 0 →
        (c.endUpdate).pauseDepth = 0 ∧ (c.endUpdate).pauseCalls = c.pauseCalls) := by
  refine ⟨rfl, rfl, rfl, fun h => ⟨?_, rfl⟩⟩
  simp [Coll.endUpdate, Coll.resumeObservers, h]

theorem endUpdate_resumes_unconditionally_witness :
    (emptyColl.endUpdate).resumeCalls = 0 + 1
    ∧ (emptyColl.endUpdate).pauseDepth = 0
    ∧ (emptyColl.endUpdate).pauseCalls = 0 :=
  ⟨(endUpdate_resumes_unconditionally emptyColl).1,
   ((endUpdate_resumes_unconditionally emptyColl).2.2.2 rfl).1,
   ((endUpdate_resumes_unconditionally emptyColl).2.2.2 rfl).2⟩

/-- C10: constructing a named, connection-backed collection whose
`registerStore` call returns a falsy result throws the duplicate-name
error instead of silently sharing or replacing the registration. -/
theorem register_store_duplicate_name (name : String) (conn : ConnModel)
    (hreg : conn.hasRegisterStore = true) (hdup : conn.registerOk name = false) :
    collectionRegister name conn =
      Except.error (ConstructErr.collectionAlreadyExists name) := by
  simp [collectionRegister, hreg, hdup]

theorem register_store_duplicate_name_witness :
    collectionRegister "posts" ⟨true, fun _ => false⟩ =
      Except.error (ConstructErr.collectionAlreadyExists "posts") :=
  register_store_duplicate_name "posts" ⟨true, fun _ => false⟩ rfl rfl

/-- C2: `beginUpdate(batchSize, reset)` calls `pauseObservers()` iff
`batchSize > 1` or `reset`; when `reset` is true every document is removed
before any `update` of the batch runs; concretely, a store holding A and B
followed by a reset batch inserting only C ends with exactly C. -/
theorem beginUpdate_pause_iff_and_reset_clears (c : Coll) (batchSize : Nat) (reset : Bool) :
    ((c.beginUpdate batchSize reset).pauseCalls = c.pauseCalls + 1 ↔
      (1 < batchSize ∨ reset = true))
    ∧ (reset = true → (c.beginUpdate batchSize reset).docs = [])
    ∧ (Coll.endUpdate ((Coll.update
          ((⟨[(Val.str "A", [("_id", Val.str "A")]),
              (Val.str "B", [("_id", Val.str "B")])], 0, 0, 0, 0⟩ : Coll).beginUpdate 1 true)
          (Msg.added "C" [])).coll)).docs =
        [(Val.str "C", [("_id", Val.str "C")])] := by
  refine ⟨?_, fun h => ?_, by decide⟩
  · cases reset with
    | true => simp [Coll.beginUpdate, Coll.pauseObservers]
    | false =>
      by_cases hb : 1 < batchSize <;>
        simp [Coll.beginUpdate, Coll.pauseObservers, hb]
  · subst h
    simp [Coll.beginUpdate]

theorem beginUpdate_pause_iff_and_reset_clears_witness :
    ((emptyColl.beginUpdate 1 true).pauseCalls = 0 + 1)
    ∧ ((emptyColl.beginUpdate 1 true).docs = [])
    ∧ ((emptyColl.beginUpdate 1 false).pauseCalls = 0) :=
  ⟨(beginUpdate_pause_iff_and_reset_clears emptyColl 1 true).1.mpr (Or.inr rfl),
   (beginUpdate_pause_iff_and_reset_clears emptyColl 1 true).2.1 rfl,
   by decide⟩

/-- C6: a `Replace` with a non-null replacement inserts the replacement
when the id is absent, and when it is present overwrites the stored
document so that its fields become exactly the fields of the replacement
(whole-document replace, not a merge). -/
theorem replace_nonnull_insert_or_overwrite (c : Coll) (i : String) (rep : Doc) :
    (c.update (Msg.replace i (some rep))).err? = none
    ∧ (Store.findOne c.docs (idParse i) = none →
        (c.update (Msg.replace i (some rep))).coll.docs = c.docs.insertDoc rep
        ∧ (docIdOf rep = idParse i →
            (c.update (Msg.replace i (some rep))).coll.docs.findOne (idParse i) = some rep))
    ∧ ((Store.findOne c.docs (idParse i)).isSome = true →
        (c.update (Msg.replace i (some rep))).coll.docs =
          c.docs.updateAt (idParse i) (Modifier.replaceWith rep)
        ∧ (c.update (Msg.replace i (some rep))).coll.docs.findOne (idParse i) = some rep) := by
  cases hf : Store.findOne c.docs (idParse i) with
  | none =>
    refine ⟨by simp [Coll.update, Msg.msgId, hf], fun _ => ⟨?_, fun hid => ?_⟩, by simp [hf]⟩
    · simp [Coll.update, Msg.msgId, hf]
    · simp only [Coll.update, Msg.msgId, hf, Store.insertDoc, hid]
      exact findOne_append_self hf rep
  | some d =>
    refine ⟨by simp [Coll.update, Msg.msgId, hf], by simp [hf], fun _ => ⟨?_, ?_⟩⟩
    · simp [Coll.update, Msg.msgId, hf]
    · simp only [Coll.update, Msg.msgId, hf, Store.updateAt]
      have := findOne_mapAt_self hf (fun d0 => applyModifier d0 (Modifier.replaceWith rep))
      simpa [applyModifier] using this

theorem replace_nonnull_insert_or_overwrite_witness :
    ((emptyColl.update (Msg.replace "1" (some [("_id", Val.str "1"), ("x", Val.int 5)]))).coll.docs
        = Store.insertDoc [] [("_id", Val.str "1"), ("x", Val.int 5)])
    ∧ ((emptyColl.update
          (Msg.replace "1" (some [("_id", Val.str "1"), ("x", Val.int 5)]))).coll.docs.findOne
        (idParse "1") = some [("_id", Val.str "1"), ("x", Val.int 5)])
    ∧ (((⟨[(Val.str "1", [("_id", Val.str "1"), ("old", Val.int 7)])], 0, 0, 0, 0⟩ : Coll).update
          (Msg.replace "1" (some [("_id", Val.str "1"), ("x", Val.int 5)]))).coll.docs.findOne
        (idParse "1") = some [("_id", Val.str "1"), ("x", Val.int 5)]) :=
  ⟨((replace_nonnull_insert_or_overwrite emptyColl "1" _).2.1 (by decide)).1,
   ((replace_nonnull_insert_or_overwrite emptyColl "1" _).2.1 (by decide)).2 (by decide),
   ((replace_nonnull_insert_or_overwrite _ "1" _).2.2 (by decide)).2⟩

/-- C9: an accepted `Added` message inserts the extension of
`{_id: parsed id}` by the message field mapping; an `_id` key inside the
field mapping overrides the message id as the stored identifier, and only
when the mapping lacks `_id` is the identifier guaranteed to equal the
message id. -/
theorem added_inserts_extended_doc (c : Coll) (i : String)
    (fields : List (String × Val))
    (habs : Store.findOne c.docs (idParse i) = none) :
    (c.update (Msg.added i fields)).err? = none
    ∧ (c.update (Msg.added i fields)).coll.docs =
        c.docs.insertDoc (extendDoc [("_id", idParse i)] fields)
    ∧ ((keysOf fields).Nodup → ∀ v : Val, ("_id", v) ∈ fields →
        docIdOf (extendDoc [("_id", idParse i)] fields) = v)
    ∧ ("_id" ∉ keysOf fields →
        docIdOf (extendDoc [("_id", idParse i)] fields) = idParse i) := by
  refine ⟨by simp [Coll.update, Msg.msgId, habs], by simp [Coll.update, Msg.msgId, habs],
    fun hnd v hv => ?_, fun hno => ?_⟩
  · rw [docIdOf, getField_extendDoc_mem hnd hv]
    rfl
  · rw [docIdOf, getField_extendDoc_of_not_mem hno]
    rfl

theorem added_inserts_extended_doc_witness :
    ((emptyColl.update (Msg.added "1" [("_id", Val.str "2")])).coll.docs =
      Store.insertDoc [] (extendDoc [("_id", idParse "1")] [("_id", Val.str "2")]))
    ∧ (docIdOf (extendDoc [("_id", idParse "1")] [("_id", Val.str "2")]) = Val.str "2")
    ∧ (docIdOf (extendDoc [("_id", idParse "1")] [("a", Val.int 1)]) = idParse "1") :=
  ⟨(added_inserts_extended_doc emptyColl "1" [("_id", Val.str "2")] (by decide)).2.1,
   (added_inserts_extended_doc emptyColl "1" [("_id", Val.str "2")] (by decide)).2.2.1
     (by decide) (Val.str "2") (by decide),
   (added_inserts_extended_doc emptyColl "1" [("a", Val.int 1)] (by decide)).2.2.2
     (by decide)⟩

/-- C5: a `Changed` message on a present id with a non-empty field mapping
is partitioned into set and unset groups applied as one
`DocumentStore.update` call: sentinel-mapped fields are removed, every
other listed field takes its new value, unlisted fields are untouched; an
empty field mapping is a no-op leaving the collection unchanged. -/
theorem changed_partition_semantics (c : Coll) (i : String)
    (fields : List (String × Val)) (d : Doc)
    (hd : Store.findOne c.docs (idParse i) = some d)
    (hnd : (keysOf fields).Nodup) :
    (c.update (Msg.changed i fields)).err? = none
    ∧ (fields = [] → (c.update (Msg.changed i fields)).coll = c)
    ∧ (fields ≠ [] →
        (c.update (Msg.changed i fields)).coll.updateCalls = c.updateCalls + 1
        ∧ (c.update (Msg.changed i fields)).coll.docs =
            c.docs.updateAt (idParse i)
              (Modifier.setUnset (setsOf fields) (unsetsOf fields)))
    ∧ ∃ d2, (c.update (Msg.changed i fields)).coll.docs.findOne (idParse i) = some d2
        ∧ (∀ k : String, (k, Val.undef) ∈ fields → getField d2 k = none)
        ∧ (∀ (k : String) (v : Val), (k, v) ∈ fields → v ≠ Val.undef →
            getField d2 k = some v)
        ∧ (∀ k : String, k ∉ keysOf fields → getField d2 k = getField d k) := by
  cases fields with
  | nil =>
    refine ⟨by simp [Coll.update, Msg.msgId, hd],
      fun _ => by simp [Coll.update, Msg.msgId, hd],
      fun h => absurd rfl h, ⟨d, ?_, ?_, ?_, ?_⟩⟩
    · simp [Coll.update, Msg.msgId, hd]
    · intro k hk; cases hk
    · intro k v hk; cases hk
    · intro k _; rfl
  | cons p rest =>
    have hdocs : (c.update (Msg.changed i (p :: rest))).coll.docs =
        c.docs.updateAt (idParse i)
          (Modifier.setUnset (setsOf (p :: rest)) (unsetsOf (p :: rest))) := by
      simp [Coll.update, Msg.msgId, hd]
    have hfind : (c.update (Msg.changed i (p :: rest))).coll.docs.findOne (idParse i) =
        some (applyModifier d
          (Modifier.setUnset (setsOf (p :: rest)) (unsetsOf (p :: rest)))) := by
      rw [hdocs, Store.updateAt]
      exact findOne_mapAt_self hd _
    refine ⟨by simp [Coll.update, Msg.msgId, hd], by simp,
      fun _ => ⟨by simp [Coll.update, Msg.msgId, hd], hdocs⟩, ⟨_, hfind, ?_, ?_, ?_⟩⟩
    · intro k hk
      rw [applyModifier, getField_removeFields]
      simp [mem_unsetsOf_of_mem hk]
    · intro k v hkv hv
      have hknot : k ∉ unsetsOf (p :: rest) := fun hmem =>
        hv (keysOf_nodup_unique hnd hkv (mem_unsetsOf hmem))
      rw [applyModifier, getField_removeFields, if_neg hknot]
      exact getField_extendDoc_mem (nodup_keysOf_setsOf hnd)
        (List.mem_filter.mpr ⟨hkv, by simp [hv]⟩) d
    · intro k hk
      have h1 : k ∉ unsetsOf (p :: rest) := fun hmem => hk (mem_unsetsOf_subset hmem)
      have h2 : k ∉ keysOf (setsOf (p :: rest)) := fun hmem => hk (keysOf_setsOf_subset hmem)
      rw [applyModifier, getField_removeFields, if_neg h1]
      exact getField_extendDoc_of_not_mem h2 d

theorem changed_partition_semantics_witness :
    (Store.findOne
        [(Val.str "1", [("_id", Val.str "1"), ("name", Val.str "a"), ("age", Val.int 3)])]
        (idParse "1") =
      some [("_id", Val.str "1"), ("name", Val.str "a"), ("age", Val.int 3)])
    ∧ (keysOf [("name", Val.str "b"), ("age", Val.undef)]).Nodup
    ∧ ((⟨[(Val.str "1",
          [("_id", Val.str "1"), ("name", Val.str "a"), ("age", Val.int 3)])],
          0, 0, 0, 0⟩ : Coll).update
        (Msg.changed "1" [("name", Val.str "b"), ("age", Val.undef)])).err? = none
    ∧ ((⟨[(Val.str "1",
          [("_id", Val.str "1"), ("name", Val.str "a"), ("age", Val.int 3)])],
          0, 0, 0, 0⟩ : Coll).update
        (Msg.changed "1" [("name", Val.str "b"), ("age", Val.undef)])).coll.updateCalls
        = 0 + 1 :=
  ⟨by decide, by decide,
   (changed_partition_semantics
      ⟨[(Val.str "1",
        [("_id", Val.str "1"), ("name", Val.str "a"), ("age", Val.int 3)])], 0, 0, 0, 0⟩
      "1" [("name", Val.str "b"), ("age", Val.undef)]
      [("_id", Val.str "1"), ("name", Val.str "a"), ("age", Val.int 3)]
      (by decide) (by decide)).1,
   ((changed_partition_semantics
      ⟨[(Val.str "1",
        [("_id", Val.str "1"), ("name", Val.str "a"), ("age", Val.int 3)])], 0, 0, 0, 0⟩
      "1" [("name", Val.str "b"), ("age", Val.undef)]
      [("_id", Val.str "1"), ("name", Val.str "a"), ("age", Val.int 3)]
      (by decide) (by decide)).2.2.1 (by decide)).1⟩

/-- C1 (amended): for sequences of well-formed messages (duplicate-free
field keys, no `_id` override inside an `Added` field mapping, and non-null
`Replace` replacements carrying `_id` equal to the message id) whose
existence preconditions hold at each step, the `update` of the session raises no
error and leaves the DocumentStore in exactly the state obtained by
replaying the sequence against the reference in-memory map under the
interpretation rules. -/
theorem replay_matches_reference_wellformed (ms : List Msg) (c : Coll) (rf : Store)
    (hok : ∀ m ∈ ms, msgOk m = true) (href : refRun c.docs ms = some rf) :
    (c.runUpdates ms).err? = none ∧ (c.runUpdates ms).coll.docs = rf :=
  runUpdates_refines ms c rf hok href

theorem replay_matches_reference_wellformed_witness :
    ([Msg.added "1" [("name", Val.str "a")],
      Msg.changed "1" [("name", Val.str "b"), ("age", Val.undef)],
      Msg.removed "1"].all msgOk = true)
    ∧ refRun emptyColl.docs
        [Msg.added "1" [("name", Val.str "a")],
         Msg.changed "1" [("name", Val.str "b"), ("age", Val.undef)],
         Msg.removed "1"] = some []
    ∧ (emptyColl.runUpdates
        [Msg.added "1" [("name", Val.str "a")],
         Msg.changed "1" [("name", Val.str "b"), ("age", Val.undef)],
         Msg.removed "1"]).err? = none
    ∧ (emptyColl.runUpdates
        [Msg.added "1" [("name", Val.str "a")],
         Msg.changed "1" [("name", Val.str "b"), ("age", Val.undef)],
         Msg.removed "1"]).coll.docs = [] :=
  ⟨by decide, by decide,
   (replay_matches_reference_wellformed
      [Msg.added "1" [("name", Val.str "a")],
       Msg.changed "1" [("name", Val.str "b"), ("age", Val.undef)],
       Msg.removed "1"] emptyColl [] (by decide) (by decide)).1,
   (replay_matches_reference_wellformed
      [Msg.added "1" [("name", Val.str "a")],
       Msg.changed "1" [("name", Val.str "b"), ("age", Val.undef)],
       Msg.removed "1"] emptyColl [] (by decide) (by decide)).2⟩

/-- C1 counterexample to the claim as stated: the one-message sequence
`Added{id: 1, fields: {_id: 2}}` satisfies its existence precondition on an
empty store (the reference replay succeeds, and the session raises no
error), yet the session keys the inserted document by the overriding `_id`
field while the reference map keys it by the message Identifier, so the
final states differ. -/
theorem replay_matches_reference_counterexample :
    refRun emptyColl.docs [Msg.added "1" [("_id", Val.str "2")]] =
      some [(Val.str "1", [("_id", Val.str "2")])]
    ∧ (emptyColl.runUpdates [Msg.added "1" [("_id", Val.str "2")]]).err? = none
    ∧ (emptyColl.runUpdates [Msg.added "1" [("_id", Val.str "2")]]).coll.docs =
      [(Val.str "2", [("_id", Val.str "2")])]
    ∧ (emptyColl.runUpdates [Msg.added "1" [("_id", Val.str "2")]]).coll.docs ≠
      [(Val.str "1", [("_id", Val.str "2")])] := by decide
